import Mathlib

/-!
Verification of the Electrum coin-selection engine (lib/coinchooser.py).

Shallow embedding notes:
* Python integers are modelled as Lean Int (values, sizes, fees, amounts);
  confirmation heights as Nat.
* Transaction.estimated_input_size and Transaction.from_io/estimated_size live
  in transaction.py, outside the given sources; they are abstract parameters
  (esz : Coin → Int, estSize : List Output → Int) of the embedding.
* The global PRNG used by random.shuffle is modelled as a stream of
  permutations, perms : Nat → List Nat, where perms i is the shuffled index
  list drawn by trial i.  The classic strategy never consumes it.
* Python set of index tuples is modelled as a duplicate-free list in insertion
  order; only membership matters for the claims settled here.
* CoinChooserRandom.penalty is abstract (NotImplementedError in the source) and
  the privacy override computes in floating point, so the penalty function is
  an abstract parameter pen : List Bucket → Int wherever it is irrelevant to
  the claim.
-/

namespace Electrum

/-- A wallet coin record, as read by coinchooser.py:
prevout_hash, prevout_n, value, height, address. -/
structure Coin where
  prevoutHash : String
  prevoutN : Nat
  value : Int
  height : Nat
  address : String
deriving DecidableEq, Repr

/-- Bucket namedtuple: desc, size, value, coins (field order as in the source). -/
structure Bucket where
  desc : String
  size : Int
  value : Int
  coins : List Coin
deriving DecidableEq, Repr

/-- An output triple (kind, destination, amount), e.g. ('address', addr, amount). -/
abbrev Output : Type := String × String × Int

/-- Draft transaction: inputs and outputs, as assembled by make_tx. -/
structure Tx where
  inputs : List Coin
  outputs : List Output
deriving DecidableEq

/-- Failure modes of the selection: NotEnoughFunds from util.py, and the
ValueError that Python's min raises on an empty sequence. -/
inductive ChooseErr where
  | notEnoughFunds
  | emptySeqMin
deriving DecidableEq, Repr

/-- Default bucket used to model Python list indexing (indices always come
from permutations of range(len(buckets)) in the source, so it is never hit
on the executions the claims speak about). -/
def dfltBucket : Bucket := ⟨"", 0, 0, []⟩

/-- Total value of a list of buckets. -/
def sumV (l : List Bucket) : Int := (l.map Bucket.value).sum

/-- Total size of a list of buckets. -/
def sumS (l : List Bucket) : Int := (l.map Bucket.size).sum

/-- The sufficiency predicate of CoinChooserRandom.choose_buckets:
total input value covers the spent amount plus the fee at the total size. -/
def suffP (spent : Int) (fee : Int → Int) (l : List Bucket) : Prop :=
  sumV l ≥ spent + fee (sumS l)

instance (spent : Int) (fee : Int → Int) (l : List Bucket) :
    Decidable (suffP spent fee l) := by unfold suffP; infer_instance

/-- Boolean form of the sufficiency predicate, as passed to bucket_candidates. -/
def suffB (spent : Int) (fee : Int → Int) (l : List Bucket) : Bool :=
  decide (suffP spent fee l)

/-! ### CoinChooserBase.bucketize_coins -/

/-- make_Bucket from bucketize_coins: size and value are exact sums over the
grouped coins; esz stands for Transaction.estimated_input_size. -/
def mkBucket (esz : Coin → Int) (desc : String) (coins : List Coin) : Bucket :=
  ⟨desc, (coins.map esz).sum, (coins.map Coin.value).sum, coins⟩

/-- bucketize_coins: group the coins by key (defaultdict(list) keyed by the
strategy's key function), then build one Bucket per distinct key.  Python 2
dict ordering is arbitrary; the bucket order here (deduplicated key order) is
one admissible order, and no settled claim depends on bucket order. -/
def bucketize (esz : Coin → Int) (key : Coin → String) (coins : List Coin) :
    List Bucket :=
  ((coins.map key).dedup).map
    (fun k => mkBucket esz k (coins.filter (fun c => key c = k)))

/-! ### CoinChooserClassic.choose_buckets -/

/-- adj_height: unconfirmed coins (height 0) are given a very large synthetic
height so they sort last. -/
def adjHeight (h : Nat) : Nat := if h = 0 then 99999999 else h

/-- Sort key of the classic strategy: maximum adjusted height over the
bucket's coins (Python's max over a nonempty list; 0 for an empty coin list,
which bucketize never produces). -/
def maxAdjHeight (b : Bucket) : Nat :=
  (b.coins.map (fun c => adjHeight c.height)).foldr max 0

/-- Height comparison used by the classic sort. -/
def heightLE (a b : Bucket) : Prop := maxAdjHeight a ≤ maxAdjHeight b

instance : DecidableRel heightLE := fun _ _ => Nat.decLe _ _

instance : IsTotal Bucket heightLE := ⟨fun _ _ => Nat.le_total _ _⟩

instance : IsTrans Bucket heightLE := ⟨fun _ _ _ => Nat.le_trans⟩

/-- Value comparison used by the trim pass sort. -/
def valueLE (a b : Bucket) : Prop := a.value ≤ b.value

instance : DecidableRel valueLE := fun _ _ => Int.decLe _ _

instance : IsTotal Bucket valueLE := ⟨fun _ _ => Int.le_total _ _⟩

instance : IsTrans Bucket valueLE := ⟨fun _ _ _ => Int.le_trans⟩

/-- buckets.sort(key = max adjusted height); Python's sort is stable, as is
insertion sort. -/
def sortHeight (buckets : List Bucket) : List Bucket :=
  List.insertionSort heightLE buckets

/-- The greedy accumulation loop of CoinChooserClassic.choose_buckets: append
buckets in order, stopping as soon as value >= spent_amount + fee(size); the
for/else raises NotEnoughFunds when the list is exhausted. -/
def greedySelect (spent : Int) (fee : Int → Int) :
    List Bucket → Int → Int → List Bucket →
    Except ChooseErr (List Bucket × Int × Int)
  | [], _, _, _ => .error .notEnoughFunds
  | b :: rest, v, s, acc =>
    let v' := v + b.value
    let s' := s + b.size
    let acc' := acc ++ [b]
    if v' ≥ spent + fee s' then .ok (acc', v', s')
    else greedySelect spent fee rest v' s' acc'

/-- The trim loop: walk the value-sorted selection; drop a bucket whenever
sufficiency survives its removal, updating the running value and size. -/
def trimGo (spent : Int) (fee : Int → Int) :
    List Bucket → Int → Int → List Bucket → Int × Int × List Bucket
  | [], v, s, dropped => (v, s, dropped)
  | b :: rest, v, s, dropped =>
    if v - b.value ≥ spent + fee (s - b.size) then
      trimGo spent fee rest (v - b.value) (s - b.size) (dropped ++ [b])
    else
      trimGo spent fee rest v s dropped

/-- CoinChooserClassic.choose_buckets: sort by adjusted height, greedily
accumulate until sufficient (NotEnoughFunds on exhaustion), sort the selection
ascending by value, trim, and return the selection minus the dropped buckets. -/
def chooseBucketsClassic (buckets : List Bucket) (spent : Int)
    (fee : Int → Int) : Except ChooseErr (List Bucket) :=
  match greedySelect spent fee (sortHeight buckets) 0 0 [] with
  | .error e => .error e
  | .ok (selected, v, s) =>
    let selSorted := List.insertionSort valueLE selected
    let r := trimGo spent fee selSorted v s []
    .ok (selSorted.filter (fun b => decide (¬ b ∈ r.2.2)))

/-! ### CoinChooserRandom -/

/-- The singleton pass of bucket_candidates: every index whose bucket alone is
sufficient becomes a candidate, in index order. -/
def singletonCands (buckets : List Bucket) (suff : List Bucket → Bool) :
    List (List Nat) :=
  ((List.range buckets.length).filter
    (fun i => suff [buckets.getD i dfltBucket])).map (fun i => [i])

/-- Insertion into the candidate set (a Python set of index tuples): only add
when not already present. -/
def addCand (cands : List (List Nat)) (c : List Nat) : List (List Nat) :=
  if c ∈ cands then cands else cands ++ [c]

/-- One randomized trial: accumulate buckets in permutation order until the
sufficiency predicate holds, returning the sorted index prefix; none when the
permutation is exhausted without sufficiency (the for/else raise). -/
def trialGo (buckets : List Bucket) (suff : List Bucket → Bool) :
    List Nat → List Bucket → List Nat → Option (List Nat)
  | [], _, _ => none
  | i :: rest, bkts, done =>
    let bkts' := bkts ++ [buckets.getD i dfltBucket]
    let done' := done ++ [i]
    if suff bkts' then some (List.insertionSort (· ≤ ·) done')
    else trialGo buckets suff rest bkts' done'

/-- Outcome of the trial that draws permutation perm. -/
def trialOutcome (buckets : List Bucket) (suff : List Bucket → Bool)
    (perm : List Nat) : Option (List Nat) :=
  trialGo buckets suff perm [] []

/-- The trial loop of bucket_candidates: run k trials starting at trial index
i, threading the candidate set; a trial that exhausts its permutation aborts
the whole loop with NotEnoughFunds.  The second component counts the trials
actually executed. -/
def runTrialsGo (buckets : List Bucket) (suff : List Bucket → Bool)
    (perms : Nat → List Nat) :
    Nat → Nat → List (List Nat) →
    Except ChooseErr (List (List Nat)) × Nat
  | 0, _, cands => (.ok cands, 0)
  | k + 1, i, cands =>
    match trialOutcome buckets suff (perms i) with
    | none => (.error .notEnoughFunds, 1)
    | some c =>
      let r := runTrialsGo buckets suff perms k (i + 1) (addCand cands c)
      (r.1, r.2 + 1)

/-- attempts = min(100, (len(buckets) - 1) * 10 + 1), over Python integers. -/
def attemptsFor (n : Nat) : Int := min 100 (((n : Int) - 1) * 10 + 1)

/-- Materialize an index candidate back into buckets. -/
def matOf (buckets : List Bucket) (idxs : List Nat) : List Bucket :=
  idxs.map (fun n => buckets.getD n dfltBucket)

/-- CoinChooserRandom.bucket_candidates: singleton pass, then the randomized
trial loop (range(attempts) is empty when attempts <= 0), then the candidate
index sets are materialized into bucket lists. -/
def bucketCandidates (buckets : List Bucket) (suff : List Bucket → Bool)
    (perms : Nat → List Nat) : Except ChooseErr (List (List Bucket)) :=
  match (runTrialsGo buckets suff perms (attemptsFor buckets.length).toNat 0
      (singletonCands buckets suff)).1 with
  | .error e => .error e
  | .ok cands => .ok (cands.map (matOf buckets))

/-- Number of randomized trials actually executed by bucket_candidates. -/
def trialsCount (buckets : List Bucket) (suff : List Bucket → Bool)
    (perms : Nat → List Nat) : Nat :=
  (runTrialsGo buckets suff perms (attemptsFor buckets.length).toNat 0
      (singletonCands buckets suff)).2

/-- CoinChooserRandom.choose_buckets: generate candidates with the sufficiency
closure, score each with the (strategy-specific) penalty, and return the first
candidate achieving the minimum penalty; Python's min raises ValueError on an
empty candidate list. -/
def chooseBucketsRandom (pen : List Bucket → Int) (perms : Nat → List Nat)
    (buckets : List Bucket) (spent : Int) (fee : Int → Int) :
    Except ChooseErr (List Bucket) :=
  match bucketCandidates buckets (suffB spent fee) perms with
  | .error e => .error e
  | .ok [] => .error .emptySeqMin
  | .ok (c :: cs) =>
    let m := (cs.map pen).foldl min (pen c)
    .ok (((c :: cs).find? (fun cand => pen cand == m)).getD c)

/-! ### CoinChooserBase.make_tx -/

/-- The two instantiable strategies (CoinChooserRandom alone has no penalty
and no key function). -/
inductive Strategy where
  | classic
  | privacy
deriving DecidableEq

/-- The strategy's key function: per-UTXO identity for classic, owning
address for privacy. -/
def keysOf : Strategy → Coin → String
  | .classic => fun c => c.prevoutHash ++ ":" ++ toString c.prevoutN
  | .privacy => fun c => c.address

/-- Dispatch of choose_buckets: classic ignores the penalty and the PRNG. -/
def chooseOf (strat : Strategy) (pen : List Bucket → Int)
    (perms : Nat → List Nat) (buckets : List Bucket) (spent : Int)
    (fee : Int → Int) : Except ChooseErr (List Bucket) :=
  match strat with
  | .classic => chooseBucketsClassic buckets spent fee
  | .privacy => chooseBucketsRandom pen perms buckets spent fee

/-- CoinChooserBase.make_tx: compute the output total and the base size, wrap
the fee estimator, bucketize, choose buckets, flatten the chosen buckets into
the input list, and append a change output exactly when the change exceeds the
dust threshold.  Pay-to-address change serializes as 34 bytes.  The first
change address is modelled by headD (the source indexes change_addrs[0]). -/
def makeTx (esz : Coin → Int) (estSize : List Output → Int)
    (strat : Strategy) (pen : List Bucket → Int) (perms : Nat → List Nat)
    (coins : List Coin) (outputs : List Output) (changeAddrs : List String)
    (feeEstimator : Int → Int) (dustThreshold : Int) : Except ChooseErr Tx :=
  let outputTotal := (outputs.map (fun o => o.2.2)).sum
  let baseSize := estSize outputs
  let fee := fun inputSize => feeEstimator (baseSize + inputSize)
  let buckets := bucketize esz (keysOf strat) coins
  match chooseOf strat pen perms buckets outputTotal fee with
  | .error e => .error e
  | .ok chosen =>
    let inputs := chosen.flatMap Bucket.coins
    let inputTotal := sumV chosen
    let txSize := baseSize + sumS chosen
    let fee2 := feeEstimator (txSize + 34)
    let changeAmount := inputTotal - (outputTotal + fee2)
    let outs :=
      if changeAmount > dustThreshold then
        outputs ++ [("address", changeAddrs.headD "", changeAmount)]
      else outputs
    .ok ⟨inputs, outs⟩

/-- The classic strategy's choose_buckets with the global PRNG state threaded
through explicitly: the state is returned untouched, since the classic code
never consults the random module. -/
def classicChooseR (g : Nat → List Nat) (buckets : List Bucket) (spent : Int)
    (fee : Int → Int) : (Nat → List Nat) × Except ChooseErr (List Bucket) :=
  (g, chooseBucketsClassic buckets spent fee)

/-! ### Concrete fixtures used by witnesses and counterexamples -/

/-- A minimal coin carrying only a confirmation height. -/
def cxCoin (h : Nat) : Coin := ⟨"", 0, 0, h, ""⟩

def c4b : Bucket := ⟨"b", 1, 2, [cxCoin 1]⟩

def c4d : Bucket := ⟨"d", 8, 3, [cxCoin 2]⟩

def c4e : Bucket := ⟨"e", 6, 20, [cxCoin 3]⟩

def c4wB : Bucket := ⟨"w", 1, 5, [cxCoin 1]⟩

def c6a : Bucket := ⟨"a", 1, 10, [cxCoin 1]⟩

def c6bb : Bucket := ⟨"b", 10, 0, [cxCoin 1]⟩

/-- Random outcomes for the C6 counterexample: the first trial draws the
identity permutation, all later trials draw the reversed one. -/
def c6perms : Nat → List Nat := fun i => if i = 0 then [0, 1] else [1, 0]

def c5bkt : Bucket := ⟨"c5", 1, 1, [cxCoin 1]⟩

def wCoin : Coin := ⟨"aa", 0, 100000, 5, "addr1"⟩

def wOuts : List Output := [("address", "dest", 50000)]

/-- The draft transaction produced for the witness scenario: one input of
100000, payment of 50000, flat fee 1000, change 49000 above dust. -/
def wTx : Tx := ⟨[wCoin], [("address", "dest", 50000), ("address", "chg", 49000)]⟩

/-! ### Basic sum lemmas -/

theorem sumV_append (l₁ l₂ : List Bucket) : sumV (l₁ ++ l₂) = sumV l₁ + sumV l₂ := by
  simp [sumV]

theorem sumS_append (l₁ l₂ : List Bucket) : sumS (l₁ ++ l₂) = sumS l₁ + sumS l₂ := by
  simp [sumS]

theorem sumV_singleton (b : Bucket) : sumV [b] = b.value := by simp [sumV]

theorem sumV_cons (b : Bucket) (l : List Bucket) : sumV (b :: l) = b.value + sumV l := by
  simp [sumV]

theorem sumS_cons (b : Bucket) (l : List Bucket) : sumS (b :: l) = b.size + sumS l := by
  simp [sumS]

theorem sumS_singleton (b : Bucket) : sumS [b] = b.size := by simp [sumS]

theorem Perm.sumV_eq {l₁ l₂ : List Bucket} (h : l₁.Perm l₂) : sumV l₁ = sumV l₂ :=
  (h.map Bucket.value).sum_eq

theorem Perm.sumS_eq {l₁ l₂ : List Bucket} (h : l₁.Perm l₂) : sumS l₁ = sumS l₂ :=
  (h.map Bucket.size).sum_eq

theorem suffP_of_perm {spent : Int} {fee : Int → Int} {l₁ l₂ : List Bucket}
    (h : l₁.Perm l₂) : suffP spent fee l₁ ↔ suffP spent fee l₂ := by
  unfold suffP
  rw [Perm.sumV_eq h, Perm.sumS_eq h]

theorem suffB_of_perm {spent : Int} {fee : Int → Int} {l₁ l₂ : List Bucket}
    (h : l₁.Perm l₂) : suffB spent fee l₁ = suffB spent fee l₂ := by
  unfold suffB
  exact decide_eq_decide.mpr (suffP_of_perm h)

/-! ### The greedy accumulation loop -/

/-- The greedy loop raises NotEnoughFunds exactly when no extension of the
accumulator by a nonempty piece of the remaining list is sufficient. -/
theorem greedySelect_error_iff (spent : Int) (fee : Int → Int) :
    ∀ (l acc : List Bucket) (v s : Int), v = sumV acc → s = sumS acc →
    (greedySelect spent fee l v s acc = .error .notEnoughFunds ↔
      ∀ k, 1 ≤ k → k ≤ l.length → ¬ suffP spent fee (acc ++ l.take k)) := by
  intro l
  induction l with
  | nil =>
    intro acc v s _ _
    constructor
    · intro _ k hk1 hk2
      simp at hk2
      omega
    · intro _
      rfl
  | cons b rest ih =>
    intro acc v s hv hs
    by_cases hsuf : v + b.value ≥ spent + fee (s + b.size)
    · rw [greedySelect, if_pos hsuf]
      constructor
      · intro h
        exact absurd h (by simp)
      · intro h
        exfalso
        refine h 1 le_rfl (by simp only [List.length_cons]; omega) ?_
        unfold suffP
        rw [List.take_succ_cons, List.take_zero, sumV_append, sumS_append,
          sumV_singleton, sumS_singleton, ← hv, ← hs]
        exact hsuf
    · rw [greedySelect, if_neg hsuf]
      rw [ih (acc ++ [b]) (v + b.value) (s + b.size)
        (by rw [sumV_append, sumV_singleton, hv]) (by rw [sumS_append, sumS_singleton, hs])]
      constructor
      · intro h k hk1 hk2
        match k, hk1 with
        | 1, _ =>
          unfold suffP
          rw [List.take_succ_cons, List.take_zero, sumV_append, sumS_append,
            sumV_singleton, sumS_singleton, ← hv, ← hs]
          exact hsuf
        | k' + 2, _ =>
          have := h (k' + 1) (by omega) (by simpa using hk2)
          simpa [List.take_succ_cons, List.append_assoc] using this
      · intro h k hk1 hk2
        have := h (k + 1) (by omega) (by simpa using hk2)
        simpa [List.take_succ_cons, List.append_assoc] using this

/-- On success the greedy loop returns the running sums and the shortest
sufficient extension of the accumulator by a nonempty piece of the list. -/
theorem greedySelect_ok (spent : Int) (fee : Int → Int) :
    ∀ (l acc : List Bucket) (v s : Int) (sel : List Bucket) (v' s' : Int),
    v = sumV acc → s = sumS acc →
    greedySelect spent fee l v s acc = .ok (sel, v', s') →
    v' = sumV sel ∧ s' = sumS sel ∧ suffP spent fee sel ∧
      ∃ k, 1 ≤ k ∧ k ≤ l.length ∧ sel = acc ++ l.take k ∧
        ∀ j, 1 ≤ j → j < k → ¬ suffP spent fee (acc ++ l.take j) := by
  intro l
  induction l with
  | nil =>
    intro acc v s sel v' s' _ _ h
    exact absurd h (by simp [greedySelect])
  | cons b rest ih =>
    intro acc v s sel v' s' hv hs h
    by_cases hsuf : v + b.value ≥ spent + fee (s + b.size)
    · rw [greedySelect, if_pos hsuf] at h
      obtain ⟨h1, h2, h3⟩ : acc ++ [b] = sel ∧ v + b.value = v' ∧ s + b.size = s' := by
        simpa [and_assoc] using (Except.ok.inj h)
      subst h1 h2 h3
      refine ⟨by rw [sumV_append, sumV_singleton, hv], by rw [sumS_append, sumS_singleton, hs], ?_, 1, le_rfl, by simp only [List.length_cons]; omega, by simp, ?_⟩
      · unfold suffP
        rw [sumV_append, sumV_singleton, sumS_append, sumS_singleton, ← hv, ← hs]
        exact hsuf
      · intro j hj1 hj2
        omega
    · rw [greedySelect, if_neg hsuf] at h
      obtain ⟨h1, h2, h3, k, hk1, hk2, hk3, hk4⟩ :=
        ih (acc ++ [b]) (v + b.value) (s + b.size) sel v' s'
          (by rw [sumV_append, sumV_singleton, hv]) (by rw [sumS_append, sumS_singleton, hs]) h
      refine ⟨h1, h2, h3, k + 1, by omega, by simp only [List.length_cons]; omega, ?_, ?_⟩
      · rw [List.take_succ_cons]
        simpa [List.append_assoc] using hk3
      · intro j hj1 hj2
        match j, hj1 with
        | 1, _ =>
          unfold suffP
          rw [List.take_succ_cons, List.take_zero, sumV_append, sumS_append,
            sumV_singleton, sumS_singleton, ← hv, ← hs]
          exact hsuf
        | j' + 2, _ =>
          have := hk4 (j' + 1) (by omega) (by omega)
          simpa [List.take_succ_cons, List.append_assoc] using this

/-! ### The trim loop -/

/-- The trim loop preserves sufficiency of the running value and size. -/
theorem trimGo_suff (spent : Int) (fee : Int → Int) :
    ∀ (l : List Bucket) (v s : Int) (d : List Bucket),
    v ≥ spent + fee s →
    (trimGo spent fee l v s d).1 ≥ spent + fee (trimGo spent fee l v s d).2.1 := by
  intro l
  induction l with
  | nil => intro v s d h; exact h
  | cons b rest ih =>
    intro v s d h
    rw [trimGo]
    by_cases hc : v - b.value ≥ spent + fee (s - b.size)
    · rw [if_pos hc]
      exact ih _ _ _ hc
    · rw [if_neg hc]
      exact ih _ _ _ h

/-- Buckets already dropped stay dropped. -/
theorem trimGo_dropped_mono (spent : Int) (fee : Int → Int) :
    ∀ (l : List Bucket) (v s : Int) (d : List Bucket) (b : Bucket),
    b ∈ d → b ∈ (trimGo spent fee l v s d).2.2 := by
  intro l
  induction l with
  | nil => intro v s d b h; exact h
  | cons x rest ih =>
    intro v s d b h
    rw [trimGo]
    by_cases hc : v - x.value ≥ spent + fee (s - x.size)
    · rw [if_pos hc]
      exact ih _ _ _ _ (List.mem_append_left _ h)
    · rw [if_neg hc]
      exact ih _ _ _ _ h

/-- Every finally dropped bucket was already dropped or comes from the list. -/
theorem trimGo_dropped_sub (spent : Int) (fee : Int → Int) :
    ∀ (l : List Bucket) (v s : Int) (d : List Bucket) (b : Bucket),
    b ∈ (trimGo spent fee l v s d).2.2 → b ∈ d ∨ b ∈ l := by
  intro l
  induction l with
  | nil => intro v s d b h; exact Or.inl h
  | cons x rest ih =>
    intro v s d b h
    rw [trimGo] at h
    by_cases hc : v - x.value ≥ spent + fee (s - x.size)
    · rw [if_pos hc] at h
      rcases ih _ _ _ _ h with h' | h'
      · rcases List.mem_append.mp h' with h'' | h''
        · exact Or.inl h''
        · exact Or.inr (by simpa using Or.inl (List.mem_singleton.mp h''))
      · exact Or.inr (List.mem_cons_of_mem _ h')
    · rw [if_neg hc] at h
      rcases ih _ _ _ _ h with h' | h'
      · exact Or.inl h'
      · exact Or.inr (List.mem_cons_of_mem _ h')

/-- For a duplicate-free list disjoint from the incoming dropped list, the
buckets surviving the final filter sum to exactly the running value and size
returned by the trim loop (shifted by the initial discrepancy). -/
theorem trimGo_filter_sums (spent : Int) (fee : Int → Int) :
    ∀ (l : List Bucket) (v s : Int) (d : List Bucket),
    l.Nodup → (∀ b ∈ l, b ∉ d) →
    sumV (l.filter (fun b => decide (¬ b ∈ (trimGo spent fee l v s d).2.2)))
      = (trimGo spent fee l v s d).1 + (sumV l - v) ∧
    sumS (l.filter (fun b => decide (¬ b ∈ (trimGo spent fee l v s d).2.2)))
      = (trimGo spent fee l v s d).2.1 + (sumS l - s) := by
  intro l
  induction l with
  | nil =>
    intro v s d _ _
    constructor <;> simp [trimGo, sumV, sumS]
  | cons x rest ih =>
    intro v s d hnd hdisj
    have hxrest : x ∉ rest := (List.nodup_cons.mp hnd).1
    have hrestnd : rest.Nodup := (List.nodup_cons.mp hnd).2
    rw [trimGo]
    by_cases hc : v - x.value ≥ spent + fee (s - x.size)
    · rw [if_pos hc]
      have hdisj' : ∀ b ∈ rest, b ∉ d ++ [x] := by
        intro b hb
        simp only [List.mem_append, List.mem_singleton]
        rintro (h' | h')
        · exact hdisj b (List.mem_cons_of_mem _ hb) h'
        · exact hxrest (h' ▸ hb)
      have hx_dropped : x ∈ (trimGo spent fee rest (v - x.value) (s - x.size) (d ++ [x])).2.2 :=
        trimGo_dropped_mono spent fee rest _ _ _ x (by simp)
      obtain ⟨ihV, ihS⟩ := ih (v - x.value) (s - x.size) (d ++ [x]) hrestnd hdisj'
      constructor
      · rw [List.filter_cons_of_neg (by simpa using hx_dropped), ihV, sumV_cons]
        ring
      · rw [List.filter_cons_of_neg (by simpa using hx_dropped), ihS, sumS_cons]
        ring
    · rw [if_neg hc]
      have hdisj' : ∀ b ∈ rest, b ∉ d := fun b hb => hdisj b (List.mem_cons_of_mem _ hb)
      have hx_kept : x ∉ (trimGo spent fee rest v s d).2.2 := by
        intro hmem
        rcases trimGo_dropped_sub spent fee rest v s d x hmem with h' | h'
        · exact hdisj x (List.mem_cons_self _ _) h'
        · exact hxrest h'
      obtain ⟨ihV, ihS⟩ := ih v s d hrestnd hdisj'
      constructor
      · rw [List.filter_cons_of_pos (by simpa using hx_kept), sumV_cons, ihV, sumV_cons]
        ring
      · rw [List.filter_cons_of_pos (by simpa using hx_kept), sumS_cons, ihS, sumS_cons]
        ring

/-- When every bucket of the list has nonnegative value, the running value
never increases along the trim loop. -/
theorem trimGo_v_le (spent : Int) (fee : Int → Int) :
    ∀ (l : List Bucket) (v s : Int) (d : List Bucket),
    (∀ x ∈ l, 0 ≤ x.value) → (trimGo spent fee l v s d).1 ≤ v := by
  intro l
  induction l with
  | nil => intro v s d _; exact le_rfl
  | cons x rest ih =>
    intro v s d hnn
    have hnn' : ∀ y ∈ rest, 0 ≤ y.value := fun y hy => hnn y (List.mem_cons_of_mem _ hy)
    have hxv : 0 ≤ x.value := hnn x (List.mem_cons_self _ _)
    rw [trimGo]
    by_cases hcheck : v - x.value ≥ spent + fee (s - x.size)
    · rw [if_pos hcheck]
      exact le_trans (ih (v - x.value) (s - x.size) (d ++ [x]) hnn') (by omega)
    · rw [if_neg hcheck]
      exact ih v s d hnn'

/-- Under a constant fee the trim loop keeps the running value sufficient,
and on a value-ascending list every surviving bucket is not removable from
the final running value: its examination failed while the running value was
at least the final one, since kept buckets have positive value (any bucket
with nonpositive value passes the drop check outright) and all buckets
dropped after it are at least as valuable. -/
theorem trimGo_kept_const (spent : Int) (fee : Int → Int) (c : Int)
    (hc : ∀ t, fee t = c) :
    ∀ (l : List Bucket) (v s : Int) (d : List Bucket),
    v ≥ spent + c → List.Pairwise valueLE l →
    ∀ b ∈ l, b ∉ (trimGo spent fee l v s d).2.2 →
      (trimGo spent fee l v s d).1 - b.value < spent + c := by
  intro l
  induction l with
  | nil =>
    intro v s d _ _ b hb
    exact absurd hb (List.not_mem_nil b)
  | cons x rest ih =>
    intro v s d hv hp b hb hbnot
    obtain ⟨hx_le, hp'⟩ := List.pairwise_cons.mp hp
    rw [trimGo] at hbnot ⊢
    by_cases hcheck : v - x.value ≥ spent + fee (s - x.size)
    · rw [if_pos hcheck] at hbnot ⊢
      have hv' : v - x.value ≥ spent + c := by rw [hc] at hcheck; exact hcheck
      rcases List.mem_cons.mp hb with h' | h'
      · exact absurd (trimGo_dropped_mono spent fee rest _ _ _ b (by simp [h'])) hbnot
      · exact ih (v - x.value) (s - x.size) (d ++ [x]) hv' hp' b h' hbnot
    · rw [if_neg hcheck] at hbnot ⊢
      have hxpos : 0 < x.value := by rw [hc] at hcheck; omega
      rcases List.mem_cons.mp hb with h' | h'
      · subst h'
        have hle : (trimGo spent fee rest v s d).1 ≤ v :=
          trimGo_v_le spent fee rest v s d
            (fun y hy => le_trans (le_of_lt hxpos) (hx_le y hy))
        rw [hc] at hcheck
        omega
      · exact ih v s d hv hp' b h' hbnot

/-- Under a constant fee, the buckets surviving the final filter sum to at
most the final running value (shifted by the initial discrepancy): every
copy removed by the filter without having been individually dropped was kept
at its examination, hence has positive value. -/
theorem trimGo_filter_le_const (spent : Int) (fee : Int → Int) (c : Int)
    (hc : ∀ t, fee t = c) :
    ∀ (l : List Bucket) (v s : Int) (d : List Bucket),
    v ≥ spent + c →
    sumV (l.filter (fun b => decide (¬ b ∈ (trimGo spent fee l v s d).2.2)))
      ≤ (trimGo spent fee l v s d).1 + (sumV l - v) := by
  intro l
  induction l with
  | nil =>
    intro v s d _
    simp [trimGo, sumV]
  | cons x rest ih =>
    intro v s d hv
    rw [trimGo]
    by_cases hcheck : v - x.value ≥ spent + fee (s - x.size)
    · rw [if_pos hcheck]
      have hv' : v - x.value ≥ spent + c := by rw [hc] at hcheck; exact hcheck
      have hx_dropped :
          x ∈ (trimGo spent fee rest (v - x.value) (s - x.size) (d ++ [x])).2.2 :=
        trimGo_dropped_mono spent fee rest _ _ _ x (by simp)
      rw [List.filter_cons_of_neg (by simpa using hx_dropped)]
      have := ih (v - x.value) (s - x.size) (d ++ [x]) hv'
      rw [sumV_cons]
      omega
    · rw [if_neg hcheck]
      have hxpos : 0 < x.value := by rw [hc] at hcheck; omega
      have := ih v s d hv
      rw [List.filter_cons]
      by_cases hx : x ∈ (trimGo spent fee rest v s d).2.2
      · rw [if_neg (by simpa using hx), sumV_cons]
        omega
      · rw [if_pos (by simpa using hx), sumV_cons, sumV_cons]
        omega

/-! ### bucketize_coins lemmas -/

theorem count_filter_key (key : Coin → String) (k : String) (c : Coin) :
    ∀ (coins : List Coin),
    List.count c (coins.filter (fun x => decide (key x = k)))
      = if key c = k then List.count c coins else 0 := by
  intro coins
  by_cases h : key c = k
  · rw [if_pos h]
    exact List.count_filter (by simpa using h)
  · rw [if_neg h]
    refine List.count_eq_zero.mpr ?_
    intro hmem
    exact h (by simpa using (List.mem_filter.mp hmem).2)

theorem flatMap_mkBucket (esz : Coin → Int) (key : Coin → String)
    (coins : List Coin) :
    ∀ (keys : List String),
    (keys.map (fun k => mkBucket esz k (coins.filter (fun c => key c = k)))).flatMap
        Bucket.coins
      = keys.flatMap (fun k => coins.filter (fun c => key c = k)) := by
  intro keys
  induction keys with
  | nil => rfl
  | cons k ks ih =>
    rw [List.map_cons, List.flatMap_cons, List.flatMap_cons, ih]
    rfl

theorem count_flatMap_keys (key : Coin → String) (c : Coin) (coins : List Coin) :
    ∀ (keys : List String), keys.Nodup →
    List.count c (keys.flatMap (fun k => coins.filter (fun x => key x = k)))
      = if key c ∈ keys then List.count c coins else 0 := by
  intro keys
  induction keys with
  | nil => intro _; simp
  | cons k ks ih =>
    intro hnd
    have hknks : k ∉ ks := (List.nodup_cons.mp hnd).1
    rw [List.flatMap_cons, List.count_append, count_filter_key,
      ih (List.nodup_cons.mp hnd).2]
    by_cases h : key c = k
    · have : key c ∉ ks := h ▸ hknks
      rw [if_pos h, if_neg this, if_pos (by simp [h])]
      omega
    · rw [if_neg h]
      by_cases h' : key c ∈ ks
      · rw [if_pos h', if_pos (by simp [h'])]
        omega
      · rw [if_neg h', if_neg (by simp [h, h'])]

/-- The buckets produced by bucketize partition the coins: flattening their
coin lists gives back the original coin list up to permutation. -/
theorem bucketize_perm (esz : Coin → Int) (key : Coin → String)
    (coins : List Coin) :
    ((bucketize esz key coins).flatMap Bucket.coins).Perm coins := by
  refine List.perm_iff_count.mpr ?_
  intro c
  rw [bucketize, flatMap_mkBucket,
    count_flatMap_keys key c coins _ (List.nodup_dedup _)]
  by_cases h : key c ∈ (coins.map key).dedup
  · rw [if_pos h]
  · rw [if_neg h]
    refine (List.count_eq_zero.mpr ?_).symm
    intro hmem
    exact h (List.mem_dedup.mpr (List.mem_map_of_mem key hmem))

/-- Every bucket built by bucketize carries the exact sums of its coins. -/
theorem bucketize_sums (esz : Coin → Int) (key : Coin → String)
    (coins : List Coin) :
    ∀ b ∈ bucketize esz key coins,
      b.value = (b.coins.map Coin.value).sum ∧ b.size = (b.coins.map esz).sum := by
  intro b hb
  obtain ⟨k, _, rfl⟩ := List.mem_map.mp hb
  exact ⟨rfl, rfl⟩

theorem bucketize_desc_map (esz : Coin → Int) (key : Coin → String)
    (coins : List Coin) :
    (bucketize esz key coins).map Bucket.desc = (coins.map key).dedup := by
  rw [bucketize, List.map_map]
  exact List.map_id _

/-- Distinct dictionary keys give pairwise distinct buckets. -/
theorem bucketize_nodup (esz : Coin → Int) (key : Coin → String)
    (coins : List Coin) : (bucketize esz key coins).Nodup :=
  List.Nodup.of_map Bucket.desc
    (by rw [bucketize_desc_map]; exact List.nodup_dedup _)

/-! ### chooseBucketsClassic characterization -/

theorem greedySelect_ne_emptySeq (spent : Int) (fee : Int → Int) :
    ∀ (l : List Bucket) (v s : Int) (acc : List Bucket),
    greedySelect spent fee l v s acc ≠ .error .emptySeqMin := by
  intro l
  induction l with
  | nil => intro v s acc h; exact absurd h (by simp [greedySelect])
  | cons b rest ih =>
    intro v s acc
    rw [greedySelect]
    by_cases hc : v + b.value ≥ spent + fee (s + b.size)
    · rw [if_pos hc]; simp
    · rw [if_neg hc]; exact ih _ _ _

theorem chooseBucketsClassic_ok_elim {buckets : List Bucket} {spent : Int}
    {fee : Int → Int} {R : List Bucket}
    (h : chooseBucketsClassic buckets spent fee = .ok R) :
    ∃ sel v s, greedySelect spent fee (sortHeight buckets) 0 0 [] = .ok (sel, v, s) ∧
      R = (List.insertionSort valueLE sel).filter
        (fun b => decide
          (¬ b ∈ (trimGo spent fee (List.insertionSort valueLE sel) v s []).2.2)) := by
  unfold chooseBucketsClassic at h
  match hg : greedySelect spent fee (sortHeight buckets) 0 0 [] with
  | .error e => rw [hg] at h; exact absurd h (by simp)
  | .ok (sel, v, s) =>
    rw [hg] at h
    exact ⟨sel, v, s, rfl, (Except.ok.inj h).symm⟩

theorem chooseBucketsClassic_error_iff (buckets : List Bucket) (spent : Int)
    (fee : Int → Int) :
    chooseBucketsClassic buckets spent fee = .error .notEnoughFunds ↔
      greedySelect spent fee (sortHeight buckets) 0 0 [] = .error .notEnoughFunds := by
  unfold chooseBucketsClassic
  match hg : greedySelect spent fee (sortHeight buckets) 0 0 [] with
  | .error e =>
    match e with
    | .notEnoughFunds => simp
    | .emptySeqMin => exact absurd hg (greedySelect_ne_emptySeq spent fee _ _ _ _)
  | .ok (sel, v, s) => simp

/-- Every bucket returned by the classic strategy is among the given buckets. -/
theorem chooseBucketsClassic_subset {buckets : List Bucket} {spent : Int}
    {fee : Int → Int} {R : List Bucket}
    (h : chooseBucketsClassic buckets spent fee = .ok R) :
    ∀ b ∈ R, b ∈ buckets := by
  obtain ⟨sel, v, s, hg, rfl⟩ := chooseBucketsClassic_ok_elim h
  intro b hb
  have hb1 : b ∈ List.insertionSort valueLE sel := (List.mem_filter.mp hb).1
  have hb2 : b ∈ sel := (List.perm_insertionSort valueLE sel).mem_iff.mp hb1
  obtain ⟨_, _, _, k, _, _, hsel, _⟩ :=
    greedySelect_ok spent fee (sortHeight buckets) [] 0 0 sel v s rfl rfl hg
  rw [hsel] at hb2
  have hb3 : b ∈ (sortHeight buckets).take k := by simpa using hb2
  have hb4 : b ∈ sortHeight buckets := List.take_subset k _ hb3
  exact (List.perm_insertionSort heightLE buckets).mem_iff.mp hb4

/-- Every bucket accumulated by the greedy loop on the sorted list comes
from the original bucket list. -/
theorem greedySelect_sel_subset {buckets : List Bucket} {spent : Int}
    {fee : Int → Int} {sel : List Bucket} {v s : Int}
    (hg : greedySelect spent fee (sortHeight buckets) 0 0 [] = .ok (sel, v, s)) :
    ∀ x ∈ sel, x ∈ buckets := by
  obtain ⟨_, _, _, k, _, _, hsel, _⟩ :=
    greedySelect_ok spent fee (sortHeight buckets) [] 0 0 sel v s rfl rfl hg
  intro x hx
  rw [hsel] at hx
  have hx1 : x ∈ (sortHeight buckets).take k := by simpa using hx
  exact (List.perm_insertionSort heightLE buckets).mem_iff.mp
    (List.take_subset k _ hx1)

/-- On duplicate-free bucket lists the classic selection is sufficient:
its total value covers the spent amount plus the fee at its total size. -/
theorem chooseBucketsClassic_suff {buckets : List Bucket} {spent : Int}
    {fee : Int → Int} {R : List Bucket} (hnd : buckets.Nodup)
    (h : chooseBucketsClassic buckets spent fee = .ok R) :
    suffP spent fee R := by
  obtain ⟨sel, v, s, hg, rfl⟩ := chooseBucketsClassic_ok_elim h
  obtain ⟨hv, hs, hsuf, k, _, _, hsel, _⟩ :=
    greedySelect_ok spent fee (sortHeight buckets) [] 0 0 sel v s rfl rfl hg
  have hsortnd : (sortHeight buckets).Nodup :=
    ((List.perm_insertionSort heightLE buckets).nodup_iff).mpr hnd
  have hselnd : sel.Nodup := by
    rw [hsel]
    have := (List.take_sublist k (sortHeight buckets)).nodup hsortnd
    simpa using this
  have hperm := List.perm_insertionSort valueLE sel
  have hssnd : (List.insertionSort valueLE sel).Nodup := hperm.nodup_iff.mpr hselnd
  have hv' : v = sumV (List.insertionSort valueLE sel) := by
    rw [hv]; exact (Perm.sumV_eq hperm).symm
  have hs' : s = sumS (List.insertionSort valueLE sel) := by
    rw [hs]; exact (Perm.sumS_eq hperm).symm
  obtain ⟨hV, hS⟩ := trimGo_filter_sums spent fee (List.insertionSort valueLE sel)
    v s [] hssnd (by intro b _; exact List.not_mem_nil b)
  have hfinal : (trimGo spent fee (List.insertionSort valueLE sel) v s []).1 ≥
      spent + fee (trimGo spent fee (List.insertionSort valueLE sel) v s []).2.1 := by
    refine trimGo_suff spent fee _ v s [] ?_
    rw [hv, hs]
    exact hsuf
  unfold suffP
  rw [hV, hS, ← hv', ← hs']
  simpa using hfinal

/-! ### Random strategy lemmas -/

theorem runTrialsGo_count_le (buckets : List Bucket) (suff : List Bucket → Bool)
    (perms : Nat → List Nat) :
    ∀ (k i : Nat) (cands : List (List Nat)),
    (runTrialsGo buckets suff perms k i cands).2 ≤ k := by
  intro k
  induction k with
  | zero => intro i cands; exact le_rfl
  | succ k ih =>
    intro i cands
    rw [runTrialsGo]
    match ht : trialOutcome buckets suff (perms i) with
    | none => simp
    | some c =>
      have := ih (i + 1) (addCand cands c)
      simpa using Nat.succ_le_succ this

theorem runTrialsGo_err_only (buckets : List Bucket) (suff : List Bucket → Bool)
    (perms : Nat → List Nat) :
    ∀ (k i : Nat) (cands : List (List Nat)) (e : ChooseErr),
    (runTrialsGo buckets suff perms k i cands).1 = .error e →
    e = .notEnoughFunds := by
  intro k
  induction k with
  | zero => intro i cands e h; exact absurd h (by simp [runTrialsGo])
  | succ k ih =>
    intro i cands e h
    rw [runTrialsGo] at h
    match ht : trialOutcome buckets suff (perms i) with
    | none =>
      rw [ht] at h
      simpa using (Except.error.inj h).symm
    | some c =>
      rw [ht] at h
      exact ih (i + 1) (addCand cands c) e h

/-- The trial loop fails exactly when some trial within the budget exhausts
its permutation, all earlier trials having succeeded. -/
theorem runTrialsGo_err_iff (buckets : List Bucket) (suff : List Bucket → Bool)
    (perms : Nat → List Nat) :
    ∀ (k i : Nat) (cands : List (List Nat)),
    ((runTrialsGo buckets suff perms k i cands).1 = .error .notEnoughFunds ↔
      ∃ j, j < k ∧ trialOutcome buckets suff (perms (i + j)) = none ∧
        ∀ j', j' < j → trialOutcome buckets suff (perms (i + j')) ≠ none) := by
  intro k
  induction k with
  | zero =>
    intro i cands
    constructor
    · intro h; exact absurd h (by simp [runTrialsGo])
    · rintro ⟨j, hj, _⟩; omega
  | succ k ih =>
    intro i cands
    rw [runTrialsGo]
    match ht : trialOutcome buckets suff (perms i) with
    | none =>
      simp only
      constructor
      · intro _
        exact ⟨0, by omega, by simpa using ht, by omega⟩
      · intro _; trivial
    | some c =>
      simp only
      rw [ih (i + 1) (addCand cands c)]
      constructor
      · rintro ⟨j, hj, hnone, hprev⟩
        refine ⟨j + 1, by omega, by rw [show i + (j + 1) = i + 1 + j by omega]; exact hnone, ?_⟩
        intro j' hj'
        match j' with
        | 0 => rw [Nat.add_zero]; simp [ht]
        | j'' + 1 =>
          rw [show i + (j'' + 1) = i + 1 + j'' by omega]
          exact hprev j'' (by omega)
      · rintro ⟨j, hj, hnone, hprev⟩
        match j with
        | 0 =>
          rw [Nat.add_zero, ht] at hnone
          exact absurd hnone (by simp)
        | j'' + 1 =>
          refine ⟨j'', by omega, by rw [show i + 1 + j'' = i + (j'' + 1) by omega]; exact hnone, ?_⟩
          intro j' hj'
          rw [show i + 1 + j' = i + (j' + 1) by omega]
          exact hprev (j' + 1) (by omega)

/-- NotEnoughFunds from the random strategy comes exactly from the trial loop. -/
theorem chooseRandom_err_iff (pen : List Bucket → Int) (perms : Nat → List Nat)
    (buckets : List Bucket) (spent : Int) (fee : Int → Int) :
    chooseBucketsRandom pen perms buckets spent fee = .error .notEnoughFunds ↔
      (runTrialsGo buckets (suffB spent fee) perms
        (attemptsFor buckets.length).toNat 0
        (singletonCands buckets (suffB spent fee))).1 = .error .notEnoughFunds := by
  unfold chooseBucketsRandom bucketCandidates
  match hr : (runTrialsGo buckets (suffB spent fee) perms
      (attemptsFor buckets.length).toNat 0
      (singletonCands buckets (suffB spent fee))).1 with
  | .error e =>
    have he := runTrialsGo_err_only buckets (suffB spent fee) perms _ _ _ e hr
    subst he
    simp
  | .ok cands =>
    match hm : cands.map (matOf buckets) with
    | [] => simp [hm]
    | c :: cs => simp [hm]

theorem matOf_cons (buckets : List Bucket) (i : Nat) (rest : List Nat) :
    matOf buckets (i :: rest) = buckets.getD i dfltBucket :: matOf buckets rest := rfl

/-- An exhausted trial checked the full accumulated bucket list and found it
insufficient. -/
theorem trialGo_none_suff (buckets : List Bucket) (suff : List Bucket → Bool) :
    ∀ (perm : List Nat) (bkts : List Bucket) (done : List Nat),
    trialGo buckets suff perm bkts done = none → perm ≠ [] →
    suff (bkts ++ matOf buckets perm) = false := by
  intro perm
  induction perm with
  | nil => intro bkts done _ hne; exact absurd rfl hne
  | cons i rest ih =>
    intro bkts done h _
    rw [trialGo] at h
    by_cases hs : suff (bkts ++ [buckets.getD i dfltBucket]) = true
    · rw [if_pos hs] at h
      exact absurd h (by simp)
    · have hs' : suff (bkts ++ [buckets.getD i dfltBucket]) = false :=
        Bool.eq_false_iff.mpr (fun hcon => hs hcon)
      rw [if_neg hs] at h
      match hrest : rest with
      | [] =>
        exact hs'
      | j :: rest' =>
        have := ih (bkts ++ [buckets.getD i dfltBucket]) (done ++ [i]) (hrest ▸ h) (by simp)
        rw [matOf_cons]
        simpa [List.append_assoc] using this

/-- Indexing back over the full range recovers the bucket list. -/
theorem map_getD_range :
    ∀ (l : List Bucket),
    (List.range l.length).map (fun i => l.getD i dfltBucket) = l := by
  intro l
  induction l with
  | nil => rfl
  | cons x xs ih =>
    rw [List.length_cons, List.range_succ_eq_map, List.map_cons, List.map_map]
    have h2 : (List.range xs.length).map
        ((fun i => (x :: xs).getD i dfltBucket) ∘ Nat.succ)
        = (List.range xs.length).map (fun i => xs.getD i dfltBucket) :=
      List.map_congr_left (fun a _ => rfl)
    rw [h2, ih]
    rfl

/-- Materializing a permutation of all indices permutes the bucket list. -/
theorem matOf_perm_of_perm (buckets : List Bucket) {perm : List Nat}
    (h : perm.Perm (List.range buckets.length)) :
    (matOf buckets perm).Perm buckets := by
  have := h.map (fun i => buckets.getD i dfltBucket)
  rwa [map_getD_range] at this

/-! ### Candidate sufficiency and the winner -/

/-- A bucket fetched by index is one of the buckets or the default. -/
theorem getD_mem_or (l : List Bucket) (n : Nat) :
    l.getD n dfltBucket ∈ l ∨ l.getD n dfltBucket = dfltBucket := by
  rw [List.getD_eq_getElem?_getD]
  match h : l[n]? with
  | some x => exact Or.inl (by simpa using List.getElem?_mem h)
  | none => exact Or.inr rfl

/-- A successful trial returns the sorted accumulated index list, whose
materialization was checked sufficient. -/
theorem trialGo_some (buckets : List Bucket) (suff : List Bucket → Bool) :
    ∀ (perm : List Nat) (bkts : List Bucket) (done : List Nat) (c : List Nat),
    trialGo buckets suff perm bkts done = some c → bkts = matOf buckets done →
    ∃ d, c = List.insertionSort (· ≤ ·) d ∧ suff (matOf buckets d) = true := by
  intro perm
  induction perm with
  | nil => intro bkts done c h _; exact absurd h (by simp [trialGo])
  | cons i rest ih =>
    intro bkts done c h hmat
    rw [trialGo] at h
    by_cases hs : suff (bkts ++ [buckets.getD i dfltBucket]) = true
    · rw [if_pos hs] at h
      refine ⟨done ++ [i], (Option.some.inj h).symm, ?_⟩
      have : matOf buckets (done ++ [i]) = bkts ++ [buckets.getD i dfltBucket] := by
        rw [hmat]
        simp [matOf]
      rw [this]
      exact hs
    · rw [if_neg hs] at h
      refine ih (bkts ++ [buckets.getD i dfltBucket]) (done ++ [i]) c h ?_
      rw [hmat]
      simp [matOf]

/-- Sorting the index list does not change the materialized sums, hence not
the boolean sufficiency value. -/
theorem suffB_matOf_sort (buckets : List Bucket) (spent : Int)
    (fee : Int → Int) (d : List Nat) :
    suffB spent fee (matOf buckets (List.insertionSort (· ≤ ·) d))
      = suffB spent fee (matOf buckets d) := by
  refine suffB_of_perm ?_
  exact (List.perm_insertionSort (· ≤ ·) d).map _

/-- Every singleton candidate is sufficient. -/
theorem singletonCands_suff (buckets : List Bucket) (suff : List Bucket → Bool) :
    ∀ c ∈ singletonCands buckets suff, suff (matOf buckets c) = true := by
  intro c hc
  obtain ⟨i, hi, rfl⟩ := List.mem_map.mp hc
  have := (List.mem_filter.mp hi).2
  simpa [matOf] using this

/-- The trial loop only adds sufficient candidates. -/
theorem runTrialsGo_suff (buckets : List Bucket) (spent : Int)
    (fee : Int → Int) (perms : Nat → List Nat) :
    ∀ (k i : Nat) (cands cands' : List (List Nat)),
    (runTrialsGo buckets (suffB spent fee) perms k i cands).1 = .ok cands' →
    (∀ c ∈ cands, suffB spent fee (matOf buckets c) = true) →
    ∀ c ∈ cands', suffB spent fee (matOf buckets c) = true := by
  intro k
  induction k with
  | zero =>
    intro i cands cands' h hinv
    have : cands = cands' := Except.ok.inj h
    exact this ▸ hinv
  | succ k ih =>
    intro i cands cands' h hinv
    rw [runTrialsGo] at h
    match ht : trialOutcome buckets (suffB spent fee) (perms i) with
    | none =>
      rw [ht] at h
      exact absurd h (by simp)
    | some c0 =>
      rw [ht] at h
      refine ih (i + 1) (addCand cands c0) cands' h ?_
      intro c hc
      unfold addCand at hc
      by_cases hin : c0 ∈ cands
      · rw [if_pos hin] at hc
        exact hinv c hc
      · rw [if_neg hin] at hc
        rcases List.mem_append.mp hc with h' | h'
        · exact hinv c h'
        · obtain ⟨d, rfl, hd⟩ :=
            trialGo_some buckets (suffB spent fee) (perms i) [] [] c0 ht rfl
          rw [List.mem_singleton.mp h', suffB_matOf_sort]
          exact hd
  
/-- Every candidate list produced by bucket_candidates is sufficient, and its
buckets come from the bucket list (or are the modelling default). -/
theorem bucketCandidates_ok_suff (buckets : List Bucket) (spent : Int)
    (fee : Int → Int) (perms : Nat → List Nat) (cl : List (List Bucket))
    (h : bucketCandidates buckets (suffB spent fee) perms = .ok cl) :
    ∀ l ∈ cl, suffP spent fee l ∧ ∀ b ∈ l, b ∈ buckets ∨ b = dfltBucket := by
  unfold bucketCandidates at h
  match hr : (runTrialsGo buckets (suffB spent fee) perms
      (attemptsFor buckets.length).toNat 0
      (singletonCands buckets (suffB spent fee))).1 with
  | .error e => rw [hr] at h; exact absurd h (by simp)
  | .ok cands =>
    rw [hr] at h
    have hcl : cl = cands.map (matOf buckets) := (Except.ok.inj h).symm
    subst hcl
    intro l hl
    obtain ⟨c, hc, rfl⟩ := List.mem_map.mp hl
    constructor
    · have := runTrialsGo_suff buckets spent fee perms _ 0 _ cands hr
        (singletonCands_suff buckets (suffB spent fee)) c hc
      unfold suffB at this
      exact of_decide_eq_true this
    · intro b hb
      obtain ⟨n, _, rfl⟩ := List.mem_map.mp hb
      exact getD_mem_or buckets n

/-- A successful random selection is one of the candidate lists. -/
theorem chooseRandom_ok_mem (pen : List Bucket → Int) (perms : Nat → List Nat)
    (buckets : List Bucket) (spent : Int) (fee : Int → Int)
    (w : List Bucket)
    (h : chooseBucketsRandom pen perms buckets spent fee = .ok w) :
    ∃ cl, bucketCandidates buckets (suffB spent fee) perms = .ok cl ∧ w ∈ cl := by
  unfold chooseBucketsRandom at h
  match hr : bucketCandidates buckets (suffB spent fee) perms with
  | .error e => rw [hr] at h; exact absurd h (by simp)
  | .ok [] => rw [hr] at h; exact absurd h (by simp)
  | .ok (c :: cs) =>
    rw [hr] at h
    refine ⟨c :: cs, rfl, ?_⟩
    have hw : ((c :: cs).find? (fun cand =>
        pen cand == (cs.map pen).foldl min (pen c))).getD c = w := by
      simpa using Except.ok.inj h
    match hf : (c :: cs).find? (fun cand =>
        pen cand == (cs.map pen).foldl min (pen c)) with
    | some x =>
      rw [hf] at hw
      simp only [Option.getD_some] at hw
      exact hw ▸ List.mem_of_find?_eq_some hf
    | none =>
      rw [hf] at hw
      simp only [Option.getD_none] at hw
      exact hw ▸ List.mem_cons_self c cs

/-! ### Dispatch and make_tx -/

/-- Both strategies only return selections that are sufficient and drawn from
the given buckets; the classic case needs duplicate-freeness, which bucketize
guarantees. -/
theorem chooseOf_ok_props (strat : Strategy) (pen : List Bucket → Int)
    (perms : Nat → List Nat) (buckets : List Bucket) (spent : Int)
    (fee : Int → Int) (chosen : List Bucket) (hnd : buckets.Nodup)
    (h : chooseOf strat pen perms buckets spent fee = .ok chosen) :
    suffP spent fee chosen ∧ ∀ b ∈ chosen, b ∈ buckets ∨ b = dfltBucket := by
  match strat with
  | .classic =>
    have h' : chooseBucketsClassic buckets spent fee = .ok chosen := h
    exact ⟨chooseBucketsClassic_suff hnd h',
      fun b hb => Or.inl (chooseBucketsClassic_subset h' b hb)⟩
  | .privacy =>
    have h' : chooseBucketsRandom pen perms buckets spent fee = .ok chosen := h
    obtain ⟨cl, hcl, hw⟩ := chooseRandom_ok_mem pen perms buckets spent fee chosen h'
    exact bucketCandidates_ok_suff buckets spent fee perms cl hcl chosen hw

/-- Flattening buckets whose value fields are exact coin sums gives the coin
level total. -/
theorem sum_flatMap_value (l : List Bucket)
    (h : ∀ b ∈ l, b.value = (b.coins.map Coin.value).sum) :
    ((l.flatMap Bucket.coins).map Coin.value).sum = sumV l := by
  induction l with
  | nil => rfl
  | cons b rest ih =>
    rw [List.flatMap_cons, List.map_append, List.sum_append, sumV_cons,
      ih (fun x hx => h x (List.mem_cons_of_mem _ hx)),
      h b (List.mem_cons_self _ _)]

/-- Likewise for size fields against the estimated input sizes. -/
theorem sum_flatMap_esz (esz : Coin → Int) (l : List Bucket)
    (h : ∀ b ∈ l, b.size = (b.coins.map esz).sum) :
    ((l.flatMap Bucket.coins).map esz).sum = sumS l := by
  induction l with
  | nil => rfl
  | cons b rest ih =>
    rw [List.flatMap_cons, List.map_append, List.sum_append, sumS_cons,
      ih (fun x hx => h x (List.mem_cons_of_mem _ hx)),
      h b (List.mem_cons_self _ _)]

/-- A bucket of the bucketize output (or the modelling default) carries exact
coin sums. -/
theorem bucket_sums_of_mem_or (esz : Coin → Int) (key : Coin → String)
    (coins : List Coin) (b : Bucket)
    (h : b ∈ bucketize esz key coins ∨ b = dfltBucket) :
    b.value = (b.coins.map Coin.value).sum ∧ b.size = (b.coins.map esz).sum := by
  rcases h with h | rfl
  · exact bucketize_sums esz key coins b h
  · exact ⟨rfl, rfl⟩

/-- Decomposition of a successful make_tx run. -/
theorem makeTx_ok_elim {esz : Coin → Int} {estSize : List Output → Int}
    {strat : Strategy} {pen : List Bucket → Int} {perms : Nat → List Nat}
    {coins : List Coin} {outputs : List Output} {changeAddrs : List String}
    {feeEstimator : Int → Int} {dust : Int} {tx : Tx}
    (h : makeTx esz estSize strat pen perms coins outputs changeAddrs
      feeEstimator dust = .ok tx) :
    ∃ chosen,
      chooseOf strat pen perms (bucketize esz (keysOf strat) coins)
        ((outputs.map (fun o => o.2.2)).sum)
        (fun inputSize => feeEstimator (estSize outputs + inputSize)) = .ok chosen ∧
      tx.inputs = chosen.flatMap Bucket.coins ∧
      tx.outputs =
        (if sumV chosen - ((outputs.map (fun o => o.2.2)).sum +
            feeEstimator (estSize outputs + sumS chosen + 34)) > dust
          then outputs ++ [("address", changeAddrs.headD "",
            sumV chosen - ((outputs.map (fun o => o.2.2)).sum +
              feeEstimator (estSize outputs + sumS chosen + 34)))]
          else outputs) := by
  unfold makeTx at h
  simp only [] at h
  match hch : chooseOf strat pen perms (bucketize esz (keysOf strat) coins)
      ((outputs.map (fun o => o.2.2)).sum)
      (fun inputSize => feeEstimator (estSize outputs + inputSize)) with
  | .error e => rw [hch] at h; exact absurd h (by simp)
  | .ok chosen =>
    rw [hch] at h
    refine ⟨chosen, rfl, ?_, ?_⟩
    · rw [← Except.ok.inj h]
    · rw [← Except.ok.inj h]

/-! ## Claim theorems -/

/-- C2: for every coin list and key function, bucketize_coins returns buckets
forming an exact partition of the input coins (each coin exactly once, up to
permutation), each bucket's value and size are the exact sums of its coins'
values and estimated input sizes, and an empty coin list yields an empty
bucket sequence, with no error path (the function is total). -/
theorem bucketize_partition (esz : Coin → Int) (key : Coin → String)
    (coins : List Coin) :
    ((bucketize esz key coins).flatMap Bucket.coins).Perm coins ∧
    (∀ b ∈ bucketize esz key coins,
      b.value = (b.coins.map Coin.value).sum ∧ b.size = (b.coins.map esz).sum) ∧
    bucketize esz key ([] : List Coin) = [] :=
  ⟨bucketize_perm esz key coins, bucketize_sums esz key coins, rfl⟩

/-- Witness for C2 at a concrete input: two same-address coins collapse into
one bucket whose coins are exactly the originals. -/
theorem bucketize_partition_w :
    ((bucketize (fun _ => 1) Coin.address [cxCoin 1, cxCoin 2]).flatMap
      Bucket.coins).Perm [cxCoin 1, cxCoin 2] ∧
    ∀ b ∈ bucketize (fun _ => 1) Coin.address [cxCoin 1, cxCoin 2],
      b.value = (b.coins.map Coin.value).sum ∧ b.size = (b.coins.map (fun _ => (1 : Int))).sum := by
  refine ⟨(bucketize_partition (fun _ => 1) Coin.address [cxCoin 1, cxCoin 2]).1,
    (bucketize_partition (fun _ => 1) Coin.address [cxCoin 1, cxCoin 2]).2.1⟩

/-- C3: the classic strategy sorts buckets by the maximum adjusted
confirmation height of their coins, where height 0 is replaced by the
synthetic height 99999999; it then greedily accumulates buckets of that
sorted order, succeeding exactly on the shortest sufficient nonempty piece
(a bucket exactly meeting the threshold ends the accumulation since the
stopping comparison is non-strict), and raises NotEnoughFunds exactly when
no nonempty piece of the sorted order is sufficient — in particular on an
empty bucket list. -/
theorem classic_greedy_spec (buckets : List Bucket) (spent : Int)
    (fee : Int → Int) :
    (sortHeight buckets).Perm buckets ∧
    List.Sorted heightLE (sortHeight buckets) ∧
    adjHeight 0 = 99999999 ∧ (∀ h : Nat, h ≠ 0 → adjHeight h = h) ∧
    (chooseBucketsClassic buckets spent fee = .error .notEnoughFunds ↔
      ∀ k, 1 ≤ k → k ≤ (sortHeight buckets).length →
        ¬ suffP spent fee ((sortHeight buckets).take k)) ∧
    (∀ sel v s, greedySelect spent fee (sortHeight buckets) 0 0 [] = .ok (sel, v, s) →
      ∃ k, 1 ≤ k ∧ k ≤ (sortHeight buckets).length ∧
        sel = (sortHeight buckets).take k ∧ suffP spent fee sel ∧
        ∀ j, 1 ≤ j → j < k → ¬ suffP spent fee ((sortHeight buckets).take j)) := by
  refine ⟨List.perm_insertionSort heightLE buckets,
    List.sorted_insertionSort heightLE buckets, rfl, fun h hh => if_neg hh, ?_, ?_⟩
  · rw [chooseBucketsClassic_error_iff]
    have h := greedySelect_error_iff spent fee (sortHeight buckets) [] 0 0 rfl rfl
    simpa using h
  · intro sel v s hg
    obtain ⟨_, _, hsuf, k, hk1, hk2, hsel, hmin⟩ :=
      greedySelect_ok spent fee (sortHeight buckets) [] 0 0 sel v s rfl rfl hg
    exact ⟨k, hk1, hk2, by simpa using hsel, hsuf,
      fun j hj1 hj2 => by simpa using hmin j hj1 hj2⟩

/-- Witness for C3: on an empty bucket list the classic strategy raises
NotEnoughFunds, obtained from the error characterization. -/
theorem classic_greedy_spec_w :
    chooseBucketsClassic [] 1 (fun _ => 0) = .error .notEnoughFunds :=
  ((classic_greedy_spec [] 1 (fun _ => 0)).2.2.2.2.1).mpr
    (fun _ hk1 hk2 => absurd (Nat.le_trans hk1 hk2) (by decide))

/-- Counterexample to C4 as stated: with buckets b(value 2, size 1),
d(value 3, size 8), e(value 20, size 6), spend amount 10 and the linear fee
function fee(t) = t, the classic strategy returns the selection containing b
and e, yet removing b still satisfies sufficiency — the trim pass drops d
after examining b, which shrinks the size-dependent fee and makes b
redundant in hindsight. -/
theorem classic_trim_not_minimal :
    chooseBucketsClassic [c4b, c4d, c4e] 10 (fun t => t) = .ok [c4b, c4e] ∧
    c4b ∈ [c4b, c4e] ∧
    sumV [c4b, c4e] - c4b.value ≥ 10 + (sumS [c4b, c4e] - c4b.size) := by
  refine ⟨rfl, by decide, by decide⟩

/-- C4 amended: when the fee function is constant (independent of the input
size), the classic selection is locally minimal — removing any single bucket
of the returned subset violates sufficiency.  (As stated, with a
size-dependent fee, the claim fails: see the counterexample.) -/
theorem classic_trim_minimal_constFee (buckets : List Bucket) (spent : Int)
    (fee : Int → Int) (c : Int) (hc : ∀ t, fee t = c) (R : List Bucket)
    (h : chooseBucketsClassic buckets spent fee = .ok R) :
    ∀ b ∈ R, sumV R - b.value < spent + fee (sumS R - b.size) := by
  obtain ⟨sel, v, s, hg, rfl⟩ := chooseBucketsClassic_ok_elim h
  intro b hb
  have hb1 : b ∈ List.insertionSort valueLE sel := (List.mem_filter.mp hb).1
  have hbnot : ¬ b ∈ (trimGo spent fee (List.insertionSort valueLE sel) v s []).2.2 := by
    simpa using (List.mem_filter.mp hb).2
  obtain ⟨hv, hs, hsuf, _⟩ :=
    greedySelect_ok spent fee (sortHeight buckets) [] 0 0 sel v s rfl rfl hg
  have hv' : v = sumV (List.insertionSort valueLE sel) := by
    rw [hv]
    exact (Perm.sumV_eq (List.perm_insertionSort valueLE sel)).symm
  have hvin : v ≥ spent + c := by
    have := hsuf
    unfold suffP at this
    rw [hc] at this
    rw [hv, hs] at *
    omega
  have hpw : List.Pairwise valueLE (List.insertionSort valueLE sel) :=
    List.sorted_insertionSort valueLE sel
  have hkept := trimGo_kept_const spent fee c hc
    (List.insertionSort valueLE sel) v s [] hvin hpw b hb1 hbnot
  have hRle := trimGo_filter_le_const spent fee c hc
    (List.insertionSort valueLE sel) v s [] hvin
  rw [← hv'] at hRle
  rw [hc]
  omega

/-- Witness for the amended C4: a single sufficient bucket under a constant
fee; removing it violates sufficiency. -/
theorem classic_trim_minimal_constFee_w :
    chooseBucketsClassic [c4wB] 3 (fun _ => 0) = .ok [c4wB] ∧
    ∀ b ∈ [c4wB], sumV [c4wB] - b.value < 3 + (fun _ => (0 : Int)) (sumS [c4wB] - b.size) :=
  ⟨rfl,
    classic_trim_minimal_constFee [c4wB] 3 (fun _ => 0) 0 (fun _ => rfl)
      [c4wB] rfl⟩

/-- C5 amended: the number of randomized trials executed by bucket_candidates
never exceeds the attempt budget clamped at zero, that is
max(0, min(100, (n-1)*10+1)) (written via Int.toNat); for nonempty bucket
lists the clamped budget agrees with the formula min(100, (n-1)*10+1) of the
claim.  (As stated the claim fails at n = 0, where the formula is negative
while zero trials run: see the counterexample.) -/
theorem random_trials_bounded (buckets : List Bucket)
    (suff : List Bucket → Bool) (perms : Nat → List Nat) :
    trialsCount buckets suff perms ≤ (attemptsFor buckets.length).toNat ∧
    (1 ≤ buckets.length →
      ((attemptsFor buckets.length).toNat : Int) = attemptsFor buckets.length) := by
  constructor
  · exact runTrialsGo_count_le buckets suff perms _ 0 _
  · intro h1
    have hlen : (1 : Int) ≤ (buckets.length : Int) := by exact_mod_cast h1
    have : (0 : Int) ≤ attemptsFor buckets.length := by
      unfold attemptsFor
      omega
    exact Int.toNat_of_nonneg this

/-- Counterexample to C5 as stated: on an empty bucket list zero trials run,
but the stated bound min(100, (0-1)*10+1) = -9 is negative, so the trial
count exceeds it. -/
theorem random_trials_bound_fails_empty :
    ¬ ((trialsCount ([] : List Bucket) (fun _ => false) (fun _ => []) : Int)
      ≤ attemptsFor (List.length ([] : List Bucket))) := by decide

/-- Witness for the amended C5 at a concrete input: one bucket, one trial
budget. -/
theorem random_trials_bounded_w :
    trialsCount [c5bkt] (suffB 0 (fun _ => 0)) (fun _ => [0])
      ≤ (attemptsFor (List.length [c5bkt])).toNat ∧
    ((attemptsFor (List.length [c5bkt])).toNat : Int)
      = attemptsFor (List.length [c5bkt]) :=
  ⟨(random_trials_bounded [c5bkt] (suffB 0 (fun _ => 0)) (fun _ => [0])).1,
    (random_trials_bounded [c5bkt] (suffB 0 (fun _ => 0)) (fun _ => [0])).2
      (by decide)⟩

/-- C6 amended: the random strategy raises NotEnoughFunds exactly when some
trial within the attempt budget exhausts its whole permutation without the
sufficiency predicate holding, all earlier trials having succeeded — such an
exhausted trial is not restricted to the very first trial (see the
counterexample); what does hold is that when the full bucket list itself
satisfies the sufficiency predicate (and the drawn index lists are
permutations of the bucket indices), no trial ever raises. -/
theorem random_exhausted_raises (pen : List Bucket → Int)
    (perms : Nat → List Nat) (buckets : List Bucket) (spent : Int)
    (fee : Int → Int) :
    (chooseBucketsRandom pen perms buckets spent fee = .error .notEnoughFunds ↔
      ∃ j, j < (attemptsFor buckets.length).toNat ∧
        trialOutcome buckets (suffB spent fee) (perms j) = none ∧
        ∀ j', j' < j → trialOutcome buckets (suffB spent fee) (perms j') ≠ none) ∧
    (suffB spent fee buckets = true →
      (∀ i, i < (attemptsFor buckets.length).toNat →
        (perms i).Perm (List.range buckets.length)) →
      chooseBucketsRandom pen perms buckets spent fee ≠ .error .notEnoughFunds) := by
  have hiff :
      chooseBucketsRandom pen perms buckets spent fee = .error .notEnoughFunds ↔
      ∃ j, j < (attemptsFor buckets.length).toNat ∧
        trialOutcome buckets (suffB spent fee) (perms j) = none ∧
        ∀ j', j' < j → trialOutcome buckets (suffB spent fee) (perms j') ≠ none := by
    rw [chooseRandom_err_iff,
      runTrialsGo_err_iff buckets (suffB spent fee) perms _ 0 _]
    constructor
    · rintro ⟨j, hj, hnone, hprev⟩
      exact ⟨j, hj, by simpa using hnone, fun j' hj' => by simpa using hprev j' hj'⟩
    · rintro ⟨j, hj, hnone, hprev⟩
      exact ⟨j, hj, by simpa using hnone, fun j' hj' => by simpa using hprev j' hj'⟩
  refine ⟨hiff, ?_⟩
  intro hfull hperm hcon
  obtain ⟨j, hj, hnone, _⟩ := hiff.mp hcon
  have pm := hperm j hj
  have hne : perms j ≠ [] := by
    intro h0
    rw [h0] at pm
    have hr : List.range buckets.length = [] := pm.symm.eq_nil
    have hn0 : buckets.length = 0 := List.range_eq_nil.mp hr
    rw [hn0] at hj
    have h00 : (attemptsFor 0).toNat = 0 := by decide
    omega
  have hfalse := trialGo_none_suff buckets (suffB spent fee) (perms j) [] [] hnone hne
  have hmat : (matOf buckets (perms j)).Perm buckets := matOf_perm_of_perm buckets pm
  have : suffB spent fee (matOf buckets (perms j)) = true := by
    rw [suffB_of_perm hmat]
    exact hfull
  rw [show ([] : List Bucket) ++ matOf buckets (perms j) = matOf buckets (perms j)
    from List.nil_append _] at hfalse
  rw [this] at hfalse
  exact absurd hfalse (by simp)

/-- Counterexample to C6 as stated: with buckets a(value 10, size 1),
b(value 0, size 10), spend amount 5 and fee(t) = t, the first trial (index
order) succeeds with the singleton a, yet the second trial (reversed order)
exhausts its permutation — 10 < 5 + fee(11) — and the whole selection raises
NotEnoughFunds on a trial after the first. -/
theorem random_raise_after_first_trial :
    trialOutcome [c6a, c6bb] (suffB 5 (fun t => t)) (c6perms 0) ≠ none ∧
    chooseBucketsRandom (fun _ => 0) c6perms [c6a, c6bb] 5 (fun t => t)
      = .error .notEnoughFunds := by
  exact ⟨by decide, rfl⟩

/-- Witness for the amended C6: a sufficient full bucket list under identity
permutations never raises NotEnoughFunds. -/
theorem random_exhausted_raises_w :
    suffB 0 (fun _ => 0) [c5bkt] = true ∧
    chooseBucketsRandom (fun _ => 0) (fun _ => [0]) [c5bkt] 0 (fun _ => 0)
      ≠ .error .notEnoughFunds :=
  ⟨by decide,
    (random_exhausted_raises (fun _ => 0) (fun _ => [0]) [c5bkt] 0 (fun _ => 0)).2
      (by decide) (fun i _ => by decide)⟩

/-- C10: on an empty bucket list with a positive spend target the random
strategy (and hence the privacy variant) does not raise NotEnoughFunds: the
attempt budget min(100, (0-1)*10+1) is negative so no trial runs, there are
no singleton candidates, bucket_candidates returns an empty candidate list
and zero trials, and choose_buckets then fails on taking the minimum of an
empty penalty sequence (Python ValueError). -/
theorem random_empty_min_failure (pen : List Bucket → Int)
    (perms : Nat → List Nat) (spent : Int) (fee : Int → Int)
    (_hs : 0 < spent) :
    chooseBucketsRandom pen perms [] spent fee = .error .emptySeqMin ∧
    chooseBucketsRandom pen perms [] spent fee ≠ .error .notEnoughFunds ∧
    bucketCandidates [] (suffB spent fee) perms = .ok [] ∧
    trialsCount [] (suffB spent fee) perms = 0 := by
  refine ⟨rfl, ?_, rfl, rfl⟩
  intro h
  have h2 : ChooseErr.emptySeqMin = ChooseErr.notEnoughFunds := Except.error.inj h
  exact absurd h2 (by decide)

/-- Witness for C10 at a concrete positive spend target. -/
theorem random_empty_min_failure_w :
    chooseBucketsRandom (fun _ => 0) (fun _ => []) [] 1 (fun _ => 0)
      = .error .emptySeqMin ∧
    chooseBucketsRandom (fun _ => 0) (fun _ => []) [] 1 (fun _ => 0)
      ≠ .error .notEnoughFunds :=
  ⟨(random_empty_min_failure (fun _ => 0) (fun _ => []) 1 (fun _ => 0) (by decide)).1,
    (random_empty_min_failure (fun _ => 0) (fun _ => []) 1 (fun _ => 0) (by decide)).2.1⟩

/-- C1: for every successful make_tx call, under either strategy, the total
value of the selected input coins is at least the requested output total plus
the fee at the transaction size without the change output, that is at
fee_estimator(base_size + sum of chosen bucket sizes), the bucket sizes being
the sums of the inputs' estimated sizes. -/
theorem make_tx_sufficient (strat : Strategy) (pen : List Bucket → Int)
    (perms : Nat → List Nat) (esz : Coin → Int)
    (estSize : List Output → Int) (coins : List Coin)
    (outputs : List Output) (changeAddrs : List String)
    (feeEstimator : Int → Int) (dust : Int) (tx : Tx)
    (h : makeTx esz estSize strat pen perms coins outputs changeAddrs
      feeEstimator dust = .ok tx) :
    (tx.inputs.map Coin.value).sum ≥
      (outputs.map (fun o => o.2.2)).sum +
        feeEstimator (estSize outputs + (tx.inputs.map esz).sum) := by
  obtain ⟨chosen, hch, hin, _⟩ := makeTx_ok_elim h
  have hnd := bucketize_nodup esz (keysOf strat) coins
  obtain ⟨hsuf, hmem⟩ := chooseOf_ok_props strat pen perms _ _ _ chosen hnd hch
  have hsums : ∀ b ∈ chosen,
      b.value = (b.coins.map Coin.value).sum ∧ b.size = (b.coins.map esz).sum :=
    fun b hb => bucket_sums_of_mem_or esz (keysOf strat) coins b (hmem b hb)
  have hV : ((chosen.flatMap Bucket.coins).map Coin.value).sum = sumV chosen :=
    sum_flatMap_value chosen (fun b hb => (hsums b hb).1)
  have hS : ((chosen.flatMap Bucket.coins).map esz).sum = sumS chosen :=
    sum_flatMap_esz esz chosen (fun b hb => (hsums b hb).2)
  rw [hin, hV, hS]
  exact hsuf

/-- Witness for C1: the classic strategy on one coin of 100000 paying 50000
with flat fee 1000; the selected input value covers the payment plus fee. -/
theorem make_tx_sufficient_w :
    makeTx (fun _ => 148) (fun _ => 10) .classic (fun _ => 0) (fun _ => [])
      [wCoin] wOuts ["chg"] (fun _ => 1000) 546 = .ok wTx ∧
    (wTx.inputs.map Coin.value).sum ≥
      (wOuts.map (fun o => o.2.2)).sum + 1000 :=
  ⟨rfl, by
    have := make_tx_sufficient .classic (fun _ => 0) (fun _ => [])
      (fun _ => 148) (fun _ => 10) [wCoin] wOuts ["chg"] (fun _ => 1000)
      546 wTx rfl
    simpa using this⟩

/-- C7: in a successful make_tx draft, with change = input_total -
(output_total + fee_estimator(tx_size + 34)), a change output of exactly that
amount paid to the first supplied change address is appended if and only if
change exceeds the dust threshold strictly; otherwise (zero, negative, or
dust) the outputs are exactly the requested ones, so at most one change
output ever exists. -/
theorem make_tx_change (strat : Strategy) (pen : List Bucket → Int)
    (perms : Nat → List Nat) (esz : Coin → Int)
    (estSize : List Output → Int) (coins : List Coin)
    (outputs : List Output) (a : String) (rest : List String)
    (feeEstimator : Int → Int) (dust : Int) (tx : Tx)
    (h : makeTx esz estSize strat pen perms coins outputs (a :: rest)
      feeEstimator dust = .ok tx) :
    tx.outputs =
      (if (tx.inputs.map Coin.value).sum -
          ((outputs.map (fun o => o.2.2)).sum +
            feeEstimator (estSize outputs + (tx.inputs.map esz).sum + 34)) > dust
        then outputs ++ [("address", a,
          (tx.inputs.map Coin.value).sum -
          ((outputs.map (fun o => o.2.2)).sum +
            feeEstimator (estSize outputs + (tx.inputs.map esz).sum + 34)))]
        else outputs) := by
  obtain ⟨chosen, hch, hin, hout⟩ := makeTx_ok_elim h
  have hnd := bucketize_nodup esz (keysOf strat) coins
  obtain ⟨_, hmem⟩ := chooseOf_ok_props strat pen perms _ _ _ chosen hnd hch
  have hsums : ∀ b ∈ chosen,
      b.value = (b.coins.map Coin.value).sum ∧ b.size = (b.coins.map esz).sum :=
    fun b hb => bucket_sums_of_mem_or esz (keysOf strat) coins b (hmem b hb)
  have hV : ((chosen.flatMap Bucket.coins).map Coin.value).sum = sumV chosen :=
    sum_flatMap_value chosen (fun b hb => (hsums b hb).1)
  have hS : ((chosen.flatMap Bucket.coins).map esz).sum = sumS chosen :=
    sum_flatMap_esz esz chosen (fun b hb => (hsums b hb).2)
  rw [hout, hin, hV, hS]
  rfl

/-- Witness for C7: in the witness scenario the change 49000 exceeds the dust
threshold 546 and is appended as a single change output to the first change
address. -/
theorem make_tx_change_w :
    makeTx (fun _ => 148) (fun _ => 10) .classic (fun _ => 0) (fun _ => [])
      [wCoin] wOuts ["chg"] (fun _ => 1000) 546 = .ok wTx ∧
    wTx.outputs = wOuts ++ [("address", "chg", 49000)] :=
  ⟨rfl,
    (make_tx_change .classic (fun _ => 0) (fun _ => []) (fun _ => 148)
      (fun _ => 10) [wCoin] wOuts "chg" [] (fun _ => 1000) 546 wTx rfl).trans
      (by decide)⟩

/-- C9: the classic strategy is deterministic — with the global PRNG state
threaded through explicitly, its result does not depend on that state, either
at the level of choose_buckets or of a whole make_tx run; two runs on the
same buckets, spend amount and fee function return the identical selection. -/
theorem classic_deterministic (g₁ g₂ : Nat → List Nat)
    (buckets : List Bucket) (spent : Int) (fee : Int → Int) :
    (classicChooseR g₁ buckets spent fee).2 = (classicChooseR g₂ buckets spent fee).2 ∧
    ∀ (esz : Coin → Int) (estSize : List Output → Int) (pen : List Bucket → Int)
      (coins : List Coin) (outputs : List Output) (changeAddrs : List String)
      (feeEstimator : Int → Int) (dust : Int),
      makeTx esz estSize .classic pen g₁ coins outputs changeAddrs feeEstimator dust =
      makeTx esz estSize .classic pen g₂ coins outputs changeAddrs feeEstimator dust :=
  ⟨rfl, fun _ _ _ _ _ _ _ _ => rfl⟩

end Electrum
